import Mathlib

/-!
Verification of the shared line scanner and fixer passes of a collection of
line-oriented YAML text fixers (`scripts/shared.py` plus the individual
`fix_*.py` passes).

Strings are modelled as `List Char`.  Python's `read_text` performs universal
newline translation, so file text reaching the fixers uses `'\n'` as the only
line terminator; `splitlines` is modelled accordingly.  Python whitespace
(`str.strip`, regex `\s`) is modelled by the ASCII whitespace set.
-/

/-- Python `\s` / `str.strip()` whitespace, restricted to the ASCII range. -/
def isPyWs (c : Char) : Bool :=
  c = ' ' ∨ c = '\t' ∨ c = '\n' ∨ c = '\r' ∨ c = '\x0b' ∨ c = '\x0c'

/-- Python `str.strip()`: drop ASCII whitespace from both ends. -/
def pyStrip (l : List Char) : List Char :=
  ((l.dropWhile isPyWs).reverse.dropWhile isPyWs).reverse

/-- Python `str.rstrip(' \t')` as used by `fix_trailing_spaces.fix_file`. -/
def rstripSpaceTab (l : List Char) : List Char :=
  (l.reverse.dropWhile (fun c => c = ' ' ∨ c = '\t')).reverse

/-- Loop body of `shared.split_code_and_comment` (`scripts/shared.py`,
lines 21–34).  `prev` is the previously scanned character (`line[i-1]`,
`none` at position 0), `inS`/`inD` are the `in_single`/`in_double` flags.
A quote toggles its flag unless the previous character is a backslash; an
unquoted `#` ends the code segment and starts the comment. -/
def splitAux : List Char → Option Char → Bool → Bool → List Char × List Char
  | [], _, _, _ => ([], [])
  | c :: rest, prev, inS, inD =>
    if c = '\x27' ∧ inD = false then
      let inS2 := if prev = some '\x5c' then inS else !inS
      let r := splitAux rest (some c) inS2 inD
      (c :: r.1, r.2)
    else if c = '\x22' ∧ inS = false then
      let inD2 := if prev = some '\x5c' then inD else !inD
      let r := splitAux rest (some c) inS inD2
      (c :: r.1, r.2)
    else if c = '#' ∧ inS = false ∧ inD = false then
      ([], c :: rest)
    else
      let r := splitAux rest (some c) inS inD
      (c :: r.1, r.2)

/-- Embedding of `shared.split_code_and_comment`: split a line into
`(code, comment)` at the first `#` outside of quotes. -/
def split_code_and_comment (line : List Char) : List Char × List Char :=
  splitAux line none false false

/-- Specification-side quote-state machine.  The state is
`(previous character, in_single, in_double)`; one step processes one
character with the same toggling rule the scanner uses. -/
def stepQuote (st : Option Char × Bool × Bool) (c : Char) : Option Char × Bool × Bool :=
  if c = '\x27' ∧ st.2.2 = false then
    (some c, (if st.1 = some '\x5c' then st.2.1 else !st.2.1), st.2.2)
  else if c = '\x22' ∧ st.2.1 = false then
    (some c, st.2.1, (if st.1 = some '\x5c' then st.2.2 else !st.2.2))
  else (some c, st.2.1, st.2.2)

/-- Run the quote-state machine over a list of characters. -/
def scanQuotes (st : Option Char × Bool × Bool) (l : List Char) : Option Char × Bool × Bool :=
  l.foldl stepQuote st

/-- Quote state of a line just before scanning position `i`. -/
def quoteStateAt (line : List Char) (i : Nat) : Option Char × Bool × Bool :=
  scanQuotes (none, false, false) (line.take i)

/-- Position `i` of `l` holds a `#` and, starting the quote machine in state
`st`, the scanner is outside of any quote there. -/
def uhFrom (st : Option Char × Bool × Bool) (l : List Char) (i : Nat) : Prop :=
  l[i]? = some '#' ∧ (scanQuotes st (l.take i)).2 = (false, false)

instance (st : Option Char × Bool × Bool) (l : List Char) (i : Nat) :
    Decidable (uhFrom st l i) := by
  unfold uhFrom; infer_instance

/-- Position `i` of `line` holds an unquoted `#` (initial scanner state). -/
def unquotedHashAt (line : List Char) (i : Nat) : Prop :=
  uhFrom (none, false, false) line i

instance (line : List Char) (i : Nat) : Decidable (unquotedHashAt line i) := by
  unfold unquotedHashAt; infer_instance

theorem uhFrom_zero (st : Option Char × Bool × Bool) (c : Char) (l : List Char) :
    uhFrom st (c :: l) 0 ↔ (c = '#' ∧ st.2 = (false, false)) := by
  simp [uhFrom, scanQuotes]

theorem uhFrom_succ (st : Option Char × Bool × Bool) (c : Char) (l : List Char) (i : Nat) :
    uhFrom st (c :: l) (i + 1) ↔ uhFrom (stepQuote st c) l i := by
  simp [uhFrom, scanQuotes]

/-- Characterization of one continuing step of the scanner loop: if the head
character does not stop the scan and the recursive result is characterized,
so is the whole result. -/
theorem chr_cons_cont (c : Char) (l : List Char) (st : Option Char × Bool × Bool)
    (s2 d2 : Bool) (r : List Char × List Char) (r' : List Char × List Char)
    (hstep : stepQuote st c = (some c, s2, d2))
    (h0 : ¬ (c = '#' ∧ st.2 = (false, false)))
    (hval : r = (c :: r'.1, r'.2))
    (ih1 : r'.1 ++ r'.2 = l)
    (ih2 : (r'.2 = [] ∧ ∀ i, ¬ uhFrom (some c, s2, d2) l i) ∨
      ∃ i, r'.1 = l.take i ∧ r'.2 = l.drop i ∧ uhFrom (some c, s2, d2) l i ∧
        ∀ j, j < i → ¬ uhFrom (some c, s2, d2) l j) :
    r.1 ++ r.2 = c :: l ∧
    ((r.2 = [] ∧ ∀ i, ¬ uhFrom st (c :: l) i) ∨
      ∃ i, r.1 = (c :: l).take i ∧ r.2 = (c :: l).drop i ∧ uhFrom st (c :: l) i ∧
        ∀ j, j < i → ¬ uhFrom st (c :: l) j) := by
  subst hval
  refine ⟨by simpa using ih1, ?_⟩
  rcases ih2 with ⟨h2, hno⟩ | ⟨i, e1, e2, hi, hmin⟩
  · left
    refine ⟨h2, ?_⟩
    intro i
    cases i with
    | zero => rw [uhFrom_zero]; exact h0
    | succ i => rw [uhFrom_succ, hstep]; exact hno i
  · right
    refine ⟨i + 1, ?_, ?_, ?_, ?_⟩
    · simpa [List.take_succ_cons] using congrArg (c :: ·) e1
    · simpa [List.drop_succ_cons] using e2
    · rw [uhFrom_succ, hstep]; exact hi
    · intro j hj
      cases j with
      | zero => rw [uhFrom_zero]; exact h0
      | succ j => rw [uhFrom_succ, hstep]; exact hmin j (by omega)

/-- Full characterization of the scanner: the pieces rejoin to the input, and
the comment is empty with no unquoted `#` anywhere, or the split happens at
the first unquoted `#`. -/
theorem splitAux_chr : ∀ (l : List Char) (prev : Option Char) (s d : Bool),
    (splitAux l prev s d).1 ++ (splitAux l prev s d).2 = l ∧
    (((splitAux l prev s d).2 = [] ∧ ∀ i, ¬ uhFrom (prev, s, d) l i) ∨
      ∃ i, (splitAux l prev s d).1 = l.take i ∧ (splitAux l prev s d).2 = l.drop i ∧
        uhFrom (prev, s, d) l i ∧ ∀ j, j < i → ¬ uhFrom (prev, s, d) l j)
  | [], prev, s, d => by
    refine ⟨rfl, Or.inl ⟨rfl, ?_⟩⟩
    intro i
    simp [uhFrom]
  | c :: l, prev, s, d => by
    by_cases h1 : c = '\x27' ∧ d = false
    · have hv : splitAux (c :: l) prev s d =
          (c :: (splitAux l (some c) (if prev = some '\x5c' then s else !s) d).1,
            (splitAux l (some c) (if prev = some '\x5c' then s else !s) d).2) := by
        simp only [splitAux, if_pos h1]
      have hstep : stepQuote (prev, s, d) c =
          (some c, (if prev = some '\x5c' then s else !s), d) := by
        simp only [stepQuote, if_pos h1]
      exact chr_cons_cont c l (prev, s, d) _ _ _ _ hstep
        (by rintro ⟨hc, -⟩; rw [hc] at h1; exact absurd h1.1 (by decide)) hv
        (splitAux_chr l (some c) _ _).1 (splitAux_chr l (some c) _ _).2
    · by_cases h2 : c = '\x22' ∧ s = false
      · have hv : splitAux (c :: l) prev s d =
            (c :: (splitAux l (some c) s (if prev = some '\x5c' then d else !d)).1,
              (splitAux l (some c) s (if prev = some '\x5c' then d else !d)).2) := by
          simp only [splitAux, if_neg h1, if_pos h2]
        have hstep : stepQuote (prev, s, d) c =
            (some c, s, (if prev = some '\x5c' then d else !d)) := by
          simp only [stepQuote, if_neg h1, if_pos h2]
        exact chr_cons_cont c l (prev, s, d) _ _ _ _ hstep
          (by rintro ⟨hc, -⟩; rw [hc] at h2; exact absurd h2.1 (by decide)) hv
          (splitAux_chr l (some c) _ _).1 (splitAux_chr l (some c) _ _).2
      · by_cases h3 : c = '#' ∧ s = false ∧ d = false
        · have hv : splitAux (c :: l) prev s d = ([], c :: l) := by
            simp only [splitAux, if_neg h1, if_neg h2, if_pos h3]
          rw [hv]
          refine ⟨rfl, Or.inr ⟨0, rfl, rfl, ?_, by omega⟩⟩
          rw [uhFrom_zero]
          exact ⟨h3.1, by simp [h3.2.1, h3.2.2]⟩
        · have hv : splitAux (c :: l) prev s d =
              (c :: (splitAux l (some c) s d).1, (splitAux l (some c) s d).2) := by
            simp only [splitAux, if_neg h1, if_neg h2, if_neg h3]
          have hstep : stepQuote (prev, s, d) c = (some c, s, d) := by
            simp only [stepQuote, if_neg h1, if_neg h2]
          refine chr_cons_cont c l (prev, s, d) _ _ _ _ hstep ?_ hv
            (splitAux_chr l (some c) _ _).1 (splitAux_chr l (some c) _ _).2
          rintro ⟨hc, hsd⟩
          exact h3 ⟨hc, by simpa using congrArg Prod.fst hsd, by simpa using congrArg Prod.snd hsd⟩

/-- C1 (counterexample): on the line `\#x` the only `#` is escaped by a
backslash, so under the claim the comment would have to be empty; the scanner
nevertheless splits there, returning code `\` and comment `#x`. -/
theorem split_escaped_hash_cx :
    split_code_and_comment ['\x5c', '#', 'x'] = (['\x5c'], ['#', 'x']) ∧
    (split_code_and_comment ['\x5c', '#', 'x']).2 ≠ [] := by
  constructor <;> decide

/-- C1 (amended): `split_code_and_comment` returns `(code, comment)` with
`code ++ comment = line`; the comment is empty exactly when no position of
the line carries a `#` outside of open quote spans (an apostrophe inside a
double-quoted span does not toggle single-quote state, since the state
machine ignores it there), and otherwise the comment starts at the first
such `#`.  Escaping of the `#` itself is not considered. -/
theorem split_code_and_comment_chr (line : List Char) :
    (split_code_and_comment line).1 ++ (split_code_and_comment line).2 = line ∧
    (((split_code_and_comment line).2 = [] ∧ ∀ i, ¬ unquotedHashAt line i) ∨
      ∃ i, (split_code_and_comment line).1 = line.take i ∧
        (split_code_and_comment line).2 = line.drop i ∧ unquotedHashAt line i ∧
        ∀ j, j < i → ¬ unquotedHashAt line j) :=
  splitAux_chr line none false false

/-- C1 (witness): evaluating the characterization on the spec's own example
line `key: "it's fine"  # keep' this`: the apostrophe inside the double
quotes does not open a single-quote span, and the split happens at the `#`
after the closing double quote. -/
theorem split_code_and_comment_chr_witness :
    (split_code_and_comment
      ['k', 'e', 'y', ':', ' ', '\x22', 'i', 't', '\x27', 's', ' ', 'f', 'i', 'n', 'e', '\x22',
        ' ', ' ', '#', ' ', 'k', 'e', 'e', 'p', '\x27', ' ', 't', 'h', 'i', 's']).1 ++
    (split_code_and_comment
      ['k', 'e', 'y', ':', ' ', '\x22', 'i', 't', '\x27', 's', ' ', 'f', 'i', 'n', 'e', '\x22',
        ' ', ' ', '#', ' ', 'k', 'e', 'e', 'p', '\x27', ' ', 't', 'h', 'i', 's']).2 =
    ['k', 'e', 'y', ':', ' ', '\x22', 'i', 't', '\x27', 's', ' ', 'f', 'i', 'n', 'e', '\x22',
      ' ', ' ', '#', ' ', 'k', 'e', 'e', 'p', '\x27', ' ', 't', 'h', 'i', 's'] :=
  (split_code_and_comment_chr _).1

/-- C2: the scanner is total — it returns a pair that rejoins to the input on
every string — and if no unquoted `#` occurs before position `p` while from
`p` to the end of the line the scanner state stays inside a quote (an
unterminated quote), then every later `#` is suppressed and the whole line is
returned as code with an empty comment. -/
theorem split_unterminated_quote (line : List Char) (p : Nat)
    (h1 : ∀ j, j < p → ¬ unquotedHashAt line j)
    (h2 : ∀ i, i < line.length → p ≤ i →
      (quoteStateAt line i).2.1 = true ∨ (quoteStateAt line i).2.2 = true) :
    (split_code_and_comment line).1 ++ (split_code_and_comment line).2 = line ∧
    split_code_and_comment line = (line, []) := by
  have hall : ∀ i, ¬ unquotedHashAt line i := by
    intro i hi
    rcases lt_or_le i p with hip | hpi
    · exact h1 i hip hi
    · have hlen : i < line.length := by
        by_contra hge
        rw [unquotedHashAt, uhFrom,
          List.getElem?_eq_none (by omega : line.length ≤ i)] at hi
        exact absurd hi.1 (by simp)
      have hst := h2 i hlen hpi
      have := hi.2
      rw [unquotedHashAt, uhFrom] at hi
      have hq : (quoteStateAt line i).2 = (false, false) := hi.2
      rcases hst with h | h <;> rw [hq] at h <;> exact absurd h (by simp)
  rcases split_code_and_comment_chr line with ⟨happ, hdisj⟩
  rcases hdisj with ⟨he, -⟩ | ⟨i, -, -, hi, -⟩
  · refine ⟨happ, ?_⟩
    have h1' : (split_code_and_comment line).1 = line := by
      rw [he] at happ; simpa using happ
    exact Prod.ext_iff.mpr ⟨h1', he⟩
  · exact absurd hi (hall i)

/-- C2 (witness): on `a'#` the quote opened at position 1 is never closed, so
the trailing `#` is suppressed and the whole line is code. -/
theorem split_unterminated_quote_witness :
    split_code_and_comment ['a', '\x27', '#'] = (['a', '\x27', '#'], []) :=
  (split_unterminated_quote ['a', '\x27', '#'] 2 (by decide) (by decide)).2

theorem stepQuote_prev (st : Option Char × Bool × Bool) (c : Char) :
    (stepQuote st c).1 = some c := by
  unfold stepQuote; split_ifs <;> rfl

/-- Previous-character component of the quote machine after scanning a prefix
is the last character of that prefix. -/
theorem scanQuotes_prev (pre : List Char) :
    (scanQuotes (none, false, false) pre).1 = pre.getLast? := by
  induction pre using List.reverseRecOn with
  | nil => rfl
  | append_singleton l c ih =>
    rw [scanQuotes, List.foldl_append]
    show (stepQuote (scanQuotes (none, false, false) l) c).1 = _
    rw [stepQuote_prev, List.getLast?_concat]

/-- C10: whether a quote character toggles its flag is decided by the single
immediately preceding character alone — the quote is inert exactly when that
character is a backslash, even when the backslash is itself escaped, and a
quote at position 0 (empty prefix, `getLast? = none`) always toggles.
Consequently after the two-character sequence `\\` a quote is still treated
as escaped, so the `#` following `\\'#` is split on as unquoted. -/
theorem quote_escape_prev_char_only (pre : List Char) :
    ((scanQuotes (none, false, false) pre).2.2 = false →
      (scanQuotes (none, false, false) (pre ++ ['\x27'])).2.1 =
        (if pre.getLast? = some '\x5c' then (scanQuotes (none, false, false) pre).2.1
          else !(scanQuotes (none, false, false) pre).2.1)) ∧
    ((scanQuotes (none, false, false) pre).2.1 = false →
      (scanQuotes (none, false, false) (pre ++ ['\x22'])).2.2 =
        (if pre.getLast? = some '\x5c' then (scanQuotes (none, false, false) pre).2.2
          else !(scanQuotes (none, false, false) pre).2.2)) ∧
    ∀ rest, split_code_and_comment ('\x5c' :: '\x5c' :: '\x27' :: '#' :: rest) =
      (['\x5c', '\x5c', '\x27'], '#' :: rest) := by
  refine ⟨?_, ?_, fun rest => rfl⟩
  · intro hd
    rw [scanQuotes, List.foldl_append]
    show (stepQuote (scanQuotes (none, false, false) pre) '\x27').2.1 = _
    rw [stepQuote, if_pos ⟨rfl, hd⟩, scanQuotes_prev]
  · intro hs
    rw [scanQuotes, List.foldl_append]
    show (stepQuote (scanQuotes (none, false, false) pre) '\x22').2.2 = _
    rw [stepQuote]
    rw [if_neg (by simp), if_pos ⟨rfl, hs⟩, scanQuotes_prev]

/-- C10 (witness): after the prefix `\\` the quote is treated as escaped and
the single-quote flag stays off. -/
theorem quote_escape_prev_char_only_witness :
    (scanQuotes (none, false, false) (['\x5c', '\x5c'] ++ ['\x27'])).2.1 = false := by
  have h := (quote_escape_prev_char_only ['\x5c', '\x5c']).1 (by decide)
  rw [h]; decide

/-- Embedding of `shared.ensure_final_newline` (`scripts/shared.py`,
lines 65–69): append one newline when the text does not end with one. -/
def ensure_final_newline (text : List Char) : List Char × Bool :=
  if ¬ text.getLast? = some '\n' then (text ++ ['\n'], true) else (text, false)

/-- Result of `ensure_final_newline` always ends with a newline. -/
theorem ensure_final_newline_ends (text : List Char) :
    (ensure_final_newline text).1.getLast? = some '\n' := by
  unfold ensure_final_newline
  split_ifs with h <;> simp_all

/-- Text already ending with a newline is returned unchanged. -/
theorem ensure_final_newline_of_ends (text : List Char)
    (h : text.getLast? = some '\n') : ensure_final_newline text = (text, false) := by
  simp [ensure_final_newline, h]

/-- C4: `ensure_final_newline` appends exactly one newline and reports changed
when the text does not end with a newline, returns the text unchanged with no
change reported when it does (so existing trailing newlines are never removed
or collapsed), and applying it twice equals applying it once. -/
theorem ensure_final_newline_spec (text : List Char) :
    (text.getLast? ≠ some '\n' → ensure_final_newline text = (text ++ ['\n'], true)) ∧
    (text.getLast? = some '\n' → ensure_final_newline text = (text, false)) ∧
    ensure_final_newline (ensure_final_newline text).1 = ((ensure_final_newline text).1, false) := by
  exact ⟨fun h => by simp [ensure_final_newline, h],
    ensure_final_newline_of_ends text,
    ensure_final_newline_of_ends _ (ensure_final_newline_ends text)⟩

/-- C4 (witness): evaluating on `a` — the newline is appended once and a
second application changes nothing. -/
theorem ensure_final_newline_spec_witness :
    ensure_final_newline ['a'] = (['a', '\n'], true) ∧
    ensure_final_newline ['a', '\n'] = (['a', '\n'], false) :=
  ⟨(ensure_final_newline_spec ['a']).1 (by decide),
    (ensure_final_newline_spec ['a', '\n']).2.1 (by decide)⟩

/-- YAML document-start marker `---`. -/
def docStart : List Char := ['-', '-', '-']

/-- Embedding of `shared.first_non_empty_index`: index of the first line whose
`strip()` is non-empty. -/
def first_non_empty_index : List (List Char) → Option Nat
  | [] => none
  | ln :: rest =>
    if pyStrip ln ≠ [] then some 0 else (first_non_empty_index rest).map (· + 1)

/-- Embedding of `shared.ensure_document_start` (`scripts/shared.py`,
lines 44–62): make `---` the first non-empty line.  When the list is empty or
all lines are blank the result is the single marker line; when the first
non-blank line strips to the marker the input is returned unchanged;
otherwise the marker is prepended, with one blank line after it when the
input had leading blank lines. -/
def ensure_document_start (lines : List (List Char)) : List (List Char) × Bool :=
  if lines = [] then ([docStart], true)
  else
    match first_non_empty_index lines with
    | none => ([docStart], true)
    | some idx =>
      if pyStrip (lines.getD idx []) = docStart then (lines, false)
      else (docStart :: (if 0 < idx then ([] : List Char) :: lines else lines), true)

theorem first_non_empty_index_none_iff (lines : List (List Char)) :
    first_non_empty_index lines = none ↔ ∀ ln ∈ lines, pyStrip ln = [] := by
  induction lines with
  | nil => simp [first_non_empty_index]
  | cons ln rest ih =>
    rw [first_non_empty_index]
    by_cases h : pyStrip ln = []
    · rw [if_neg (by simpa using h)]
      simp [Option.map_eq_none', ih, h]
    · rw [if_pos (by simpa using h)]
      simp only [List.mem_cons]
      constructor
      · intro hc; exact absurd hc (by simp)
      · intro hall; exact absurd (hall ln (Or.inl rfl)) h

theorem first_non_empty_index_some (lines : List (List Char)) (i : Nat)
    (h : first_non_empty_index lines = some i) :
    pyStrip (lines.getD i []) ≠ [] := by
  induction lines generalizing i with
  | nil => simp [first_non_empty_index] at h
  | cons ln rest ih =>
    by_cases hln : pyStrip ln ≠ []
    · rw [first_non_empty_index, if_pos hln] at h
      cases h
      simpa using hln
    · rw [first_non_empty_index, if_neg hln] at h
      rcases Option.map_eq_some'.mp h with ⟨j, hj, rfl⟩
      simpa using ih j hj

/-- C3 (counterexample): the code compares the *stripped* first non-blank
line against the marker, so the input whose only line is `space ---` is
returned unchanged with `changed = False`, although its first non-blank line
is not exactly the three-character marker (the claim would require the
marker to be prepended here). -/
theorem ensure_document_start_cx :
    ensure_document_start [[' ', '-', '-', '-']] = ([[' ', '-', '-', '-']], false) ∧
    first_non_empty_index [[' ', '-', '-', '-']] = some 0 ∧
    [' ', '-', '-', '-'] ≠ docStart := by
  refine ⟨?_, ?_, ?_⟩ <;> decide

/-- Helper: a list whose first non-blank line strips to the marker is
returned unchanged with no change flag. -/
theorem ensure_document_start_fix (out : List (List Char))
    (h : ∃ j, first_non_empty_index out = some j ∧ pyStrip (out.getD j []) = docStart) :
    ensure_document_start out = (out, false) := by
  rcases h with ⟨j, hj, hs⟩
  have hne : out ≠ [] := by
    rintro rfl
    simp [first_non_empty_index] at hj
  simp only [ensure_document_start, if_neg hne, hj, if_pos hs]

/-- Helper: a list starting with the marker line has it as first non-blank. -/
theorem first_non_empty_index_docStart_cons (t : List (List Char)) :
    first_non_empty_index (docStart :: t) = some 0 ∧
    pyStrip ((docStart :: t).getD 0 []) = docStart := by
  constructor
  · rw [first_non_empty_index, if_pos (by decide)]
  · show pyStrip docStart = docStart
    decide

/-- C3 (amended): `ensure_document_start` returns a pair whose first
non-blank line *strips to* the marker `---`: an input with no non-blank line
(including the empty list) becomes the single marker line with
`changed = True`; an input whose first non-blank line strips to the marker is
returned unchanged with `changed = False`; otherwise the marker is prepended,
with one blank line inserted after it exactly when the input had leading
blank lines, and `changed = True`.  A second application never changes the
result. -/
theorem ensure_document_start_spec (lines : List (List Char)) :
    ((∀ ln ∈ lines, pyStrip ln = []) → ensure_document_start lines = ([docStart], true)) ∧
    (∀ idx, first_non_empty_index lines = some idx →
      (pyStrip (lines.getD idx []) = docStart → ensure_document_start lines = (lines, false)) ∧
      (pyStrip (lines.getD idx []) ≠ docStart →
        ensure_document_start lines =
          (docStart :: (if 0 < idx then ([] : List Char) :: lines else lines), true))) ∧
    (∃ j, first_non_empty_index (ensure_document_start lines).1 = some j ∧
      pyStrip ((ensure_document_start lines).1.getD j []) = docStart) ∧
    ensure_document_start (ensure_document_start lines).1 =
      ((ensure_document_start lines).1, false) := by
  have main : ((∀ ln ∈ lines, pyStrip ln = []) → ensure_document_start lines = ([docStart], true)) ∧
      (∀ idx, first_non_empty_index lines = some idx →
        (pyStrip (lines.getD idx []) = docStart → ensure_document_start lines = (lines, false)) ∧
        (pyStrip (lines.getD idx []) ≠ docStart →
          ensure_document_start lines =
            (docStart :: (if 0 < idx then ([] : List Char) :: lines else lines), true))) ∧
      (∃ j, first_non_empty_index (ensure_document_start lines).1 = some j ∧
        pyStrip ((ensure_document_start lines).1.getD j []) = docStart) := by
    by_cases hnil : lines = []
    · subst hnil
      refine ⟨fun _ => by decide, ?_, ?_⟩
      · intro idx hidx
        simp [first_non_empty_index] at hidx
      · exact ⟨0, by decide⟩
    · cases hf : first_non_empty_index lines with
      | none =>
        have hv : ensure_document_start lines = ([docStart], true) := by
          simp only [ensure_document_start, if_neg hnil, hf]
        refine ⟨fun _ => hv, ?_, ?_⟩
        · intro idx hidx
          cases hidx
        · rw [hv]
          exact ⟨0, by decide⟩
      | some idx =>
        by_cases hs : pyStrip (lines.getD idx []) = docStart
        · have hv : ensure_document_start lines = (lines, false) := by
            simp only [ensure_document_start, if_neg hnil, hf, if_pos hs]
          refine ⟨?_, ?_, ?_⟩
          · intro hall
            rw [← first_non_empty_index_none_iff] at hall
            rw [hall] at hf
            cases hf
          · intro idx' hidx'
            injection hidx' with hininj
            subst hininj
            exact ⟨fun _ => hv, fun hne => absurd hs hne⟩
          · rw [hv]
            exact ⟨idx, hf, hs⟩
        · have hv : ensure_document_start lines =
              (docStart :: (if 0 < idx then ([] : List Char) :: lines else lines), true) := by
            simp only [ensure_document_start, if_neg hnil, hf, if_neg hs]
          refine ⟨?_, ?_, ?_⟩
          · intro hall
            rw [← first_non_empty_index_none_iff] at hall
            rw [hall] at hf
            cases hf
          · intro idx' hidx'
            injection hidx' with hininj
            subst hininj
            exact ⟨fun hs' => absurd hs' hs, fun _ => hv⟩
          · rw [hv]
            exact ⟨0, first_non_empty_index_docStart_cons _⟩
  exact ⟨main.1, main.2.1, main.2.2, ensure_document_start_fix _ main.2.2⟩

/-- C3 (witness): a file with one leading blank line and a non-marker line
gets the marker prepended followed by one blank line. -/
theorem ensure_document_start_spec_witness :
    ensure_document_start [[], ['a']] = ([docStart, [], [], ['a']], true) := by
  have h := ((ensure_document_start_spec [[], ['a']]).2.1 1 (by decide)).2 (by decide)
  simpa using h

/-- Model of a filesystem entry: a regular file with a name, or a directory
with a name and children.  Path inputs of `iter_yaml_files` resolve to
`some` entry or to `none` (missing path or unusual file type). -/
inductive FsEntry : Type where
  | file : List Char → FsEntry
  | dir : List Char → List FsEntry → FsEntry

/-- Name of an entry (final path component). -/
def entryName : FsEntry → List Char
  | .file n => n
  | .dir n _ => n

/-- Python `Path.is_file()`. -/
def isRegFile : FsEntry → Bool
  | .file _ => true
  | .dir _ _ => false

/-- Python `Path.suffix`: the final extension of a name, including the dot;
empty when the last dot is at position 0, absent, or final. -/
def pySuffix (name : List Char) : List Char :=
  match name.reverse.findIdx? (fun c => c = '.') with
  | none => []
  | some k =>
    let i := name.length - 1 - k
    if 0 < i ∧ i + 1 < name.length then name.drop i else []

/-- Extension test of `iter_yaml_files`: `path.suffix.lower() in {yml, yaml}`. -/
def isYamlName (n : List Char) : Bool :=
  (pySuffix n).map Char.toLower = ['.', 'y', 'm', 'l'] ∨
  (pySuffix n).map Char.toLower = ['.', 'y', 'a', 'm', 'l']

mutual
/-- Python `dir.rglob('*')` restricted to one entry: every strict descendant
of the entry, in depth-first order. -/
def rglobAll : FsEntry → List FsEntry
  | .file _ => []
  | .dir _ cs => rglobAllList cs

/-- Descendants of a list of sibling entries: each entry followed by its own
descendants. -/
def rglobAllList : List FsEntry → List FsEntry
  | [] => []
  | e :: rest => e :: (rglobAll e ++ rglobAllList rest)
end

/-- Embedding of `shared.iter_yaml_files` (`scripts/shared.py`, lines 8–18):
an input resolving to a regular file with a YAML extension is yielded; an
input resolving to a directory is recursively globbed and the matching
regular files below it are yielded; anything else yields nothing.  Yields
entry names. -/
def iter_yaml_files (inputs : List (Option FsEntry)) : List (List Char) :=
  inputs.flatMap fun inp =>
    match inp with
    | none => []
    | some (.file n) => if isYamlName n then [n] else []
    | some (.dir _ cs) =>
      ((rglobAllList cs).filter (fun s => isRegFile s && isYamlName (entryName s))).map entryName

mutual
/-- Modelled from the spec: the names of every regular file with a
`.yml`/`.yaml` extension (case-insensitive) lying under an entry,
collected by plain structural recursion. -/
def specYamlFilesUnder : FsEntry → List (List Char)
  | .file n => if isYamlName n then [n] else []
  | .dir _ cs => specYamlFilesUnderList cs

/-- Modelled from the spec: matching regular files under a list of entries. -/
def specYamlFilesUnderList : List FsEntry → List (List Char)
  | [] => []
  | e :: rest => specYamlFilesUnder e ++ specYamlFilesUnderList rest
end

mutual
/-- Filtering an entry together with its descendants for matching regular
files produces exactly the spec-side collection for that entry. -/
theorem rglob_filter_eq (e : FsEntry) :
    ((e :: rglobAll e).filter (fun s => isRegFile s && isYamlName (entryName s))).map entryName =
      specYamlFilesUnder e := by
  cases e with
  | file n =>
    by_cases hy : isYamlName n = true
    · simp [rglobAll, isRegFile, entryName, specYamlFilesUnder, hy]
    · simp [rglobAll, isRegFile, entryName, specYamlFilesUnder, hy]
  | dir n cs =>
    rw [List.filter_cons, if_neg (by simp [isRegFile])]
    rw [rglobAll, specYamlFilesUnder]
    exact rglob_filter_eq_list cs

/-- List version of `rglob_filter_eq`. -/
theorem rglob_filter_eq_list (es : List FsEntry) :
    ((rglobAllList es).filter (fun s => isRegFile s && isYamlName (entryName s))).map entryName =
      specYamlFilesUnderList es := by
  cases es with
  | nil => rfl
  | cons e rest =>
    rw [rglobAllList, specYamlFilesUnderList, ← List.cons_append, List.filter_append,
      List.map_append, rglob_filter_eq e, rglob_filter_eq_list rest]
end

/-- C5: `iter_yaml_files` yields exactly the matching inputs and, for each
directory input, the matching regular files under it (computed by the
spec-side structural collection); inputs resolving to neither a matching
file nor a directory contribute nothing, and every yielded name has a
`.yml`/`.yaml` extension compared case-insensitively.  Being a total
function, it raises no exception on any input list. -/
theorem iter_yaml_files_spec (inputs : List (Option FsEntry)) :
    iter_yaml_files inputs = (inputs.flatMap fun inp =>
      match inp with
      | none => []
      | some (.file n) => if isYamlName n then [n] else []
      | some (.dir _ cs) => specYamlFilesUnderList cs) ∧
    (∀ n, n ∈ iter_yaml_files inputs → isYamlName n = true) := by
  constructor
  · induction inputs with
    | nil => rfl
    | cons inp rest ih =>
      rw [iter_yaml_files, List.flatMap_cons, List.flatMap_cons]
      rw [iter_yaml_files] at ih
      rw [ih]
      rcases inp with _ | e
      · rfl
      · cases e with
        | file n => rfl
        | dir nm cs =>
          exact congrArg₂ (· ++ ·) (rglob_filter_eq_list cs) rfl
  · intro n hn
    rw [iter_yaml_files] at hn
    rcases List.mem_flatMap.mp hn with ⟨inp, hinp, hmem⟩
    rcases inp with _ | e
    · simp at hmem
    · cases e with
      | file m =>
        by_cases hy : isYamlName m = true
        · rw [show (match some (FsEntry.file m) with
              | none => ([] : List (List Char))
              | some (.file n) => if isYamlName n then [n] else []
              | some (.dir _ cs) =>
                ((rglobAllList cs).filter
                  (fun s => isRegFile s && isYamlName (entryName s))).map entryName) =
              (if isYamlName m then [m] else []) from rfl, if_pos hy] at hmem
          rcases List.mem_singleton.mp hmem with rfl
          exact hy
        · rw [show (match some (FsEntry.file m) with
              | none => ([] : List (List Char))
              | some (.file n) => if isYamlName n then [n] else []
              | some (.dir _ cs) =>
                ((rglobAllList cs).filter
                  (fun s => isRegFile s && isYamlName (entryName s))).map entryName) =
              (if isYamlName m then [m] else []) from rfl, if_neg hy] at hmem
          simp at hmem
      | dir nm cs =>
        have hmem' : n ∈ ((rglobAllList cs).filter
            (fun s => isRegFile s && isYamlName (entryName s))).map entryName := hmem
        rcases List.mem_map.mp hmem' with ⟨s, hs, rfl⟩
        have hp := (List.mem_filter.mp hs).2
        exact (Bool.and_eq_true_iff.mp hp).2

/-- Example directory tree from the spec: `a.yml`, `b.YAML`, `c.txt` and a
subdirectory `d` containing `e.yaml`. -/
def exampleTree : FsEntry :=
  .dir ['r']
    [.file ['a', '.', 'y', 'm', 'l'], .file ['b', '.', 'Y', 'A', 'M', 'L'],
      .file ['c', '.', 't', 'x', 't'], .dir ['d'] [.file ['e', '.', 'y', 'a', 'm', 'l']]]

/-- C5 (witness): on the spec's example tree, exactly `a.yml`, `b.YAML` and
`d/e.yaml` are yielded and `c.txt` is excluded. -/
theorem iter_yaml_files_spec_witness :
    iter_yaml_files [some exampleTree] =
      [['a', '.', 'y', 'm', 'l'], ['b', '.', 'Y', 'A', 'M', 'L'], ['e', '.', 'y', 'a', 'm', 'l']] ∧
    isYamlName ['a', '.', 'y', 'm', 'l'] = true :=
  ⟨(iter_yaml_files_spec [some exampleTree]).1.trans (by decide),
    (iter_yaml_files_spec [some exampleTree]).2 ['a', '.', 'y', 'm', 'l'] (by decide)⟩

/-- Embedding of the uniform `main` loop shared by every fixer script
(e.g. `fix_colons.py`, lines 114–138): iterate over the discovered files,
counting `checked` before attempting each file; a raised exception returns
exit code 2 immediately; after the loop, exit code 1 when no file was
checked, else 0.  Per-file processing is abstracted as an `Except`-valued
function; the result is `(exit code, number of files attempted)`. -/
def run_fixer {α ε : Type} (process : α → Except ε Bool) :
    List α → Nat → Nat → Nat × Nat
  | [], _, checked => (if checked = 0 then 1 else 0, checked)
  | f :: rest, changed, checked =>
    match process f with
    | .ok b => run_fixer process rest (if b then changed + 1 else changed) (checked + 1)
    | .error _ => (2, checked + 1)

/-- Entry point of the loop with zeroed counters. -/
def main_fixer {α ε : Type} (process : α → Except ε Bool) (files : List α) : Nat × Nat :=
  run_fixer process files 0 0

theorem run_fixer_ok {α ε : Type} (process : α → Except ε Bool) :
    ∀ (l : List α) (changed checked : Nat), (∀ f ∈ l, ∃ b, process f = .ok b) →
      run_fixer process l changed checked =
        (if checked + l.length = 0 then 1 else 0, checked + l.length)
  | [], changed, checked, _ => by simp [run_fixer]
  | f :: rest, changed, checked, h => by
    rcases h f (List.mem_cons_self f rest) with ⟨b, hb⟩
    rw [run_fixer, hb]
    show run_fixer process rest _ (checked + 1) = _
    rw [run_fixer_ok process rest _ (checked + 1) (fun g hg => h g (List.mem_cons_of_mem f hg))]
    have : checked + 1 + rest.length = checked + (rest.length + 1) := by omega
    rw [this]
    simp [Nat.add_eq_zero]

theorem run_fixer_error {α ε : Type} (process : α → Except ε Bool) (f : α) (e : ε)
    (post : List α) (hf : process f = .error e) :
    ∀ (pre : List α) (changed checked : Nat), (∀ g ∈ pre, ∃ b, process g = .ok b) →
      run_fixer process (pre ++ f :: post) changed checked = (2, checked + pre.length + 1)
  | [], changed, checked, _ => by
    rw [List.nil_append, run_fixer, hf]
    simp
  | g :: pre, changed, checked, h => by
    rcases h g (List.mem_cons_self g pre) with ⟨b, hb⟩
    rw [List.cons_append, run_fixer, hb]
    show run_fixer process (pre ++ f :: post) _ (checked + 1) = _
    rw [run_fixer_error process f e post hf pre _ (checked + 1)
      (fun g' hg' => h g' (List.mem_cons_of_mem g hg'))]
    simp only [List.length_cons]
    congr 1
    omega

/-- C8: every fixer's `main` returns exit code 0 on a run where every file
processes without exception (regardless of how many changed), exit code 1
with no file attempted when the discovered file list is empty, and exit
code 2 when some file raises, having attempted only the files up to and
including the failing one. -/
theorem main_fixer_exit_codes {α ε : Type} (process : α → Except ε Bool) (files : List α) :
    (files = [] → main_fixer process files = (1, 0)) ∧
    ((∀ f ∈ files, ∃ b, process f = .ok b) → files ≠ [] →
      (main_fixer process files).1 = 0) ∧
    (∀ (pre : List α) (f : α) (post : List α) (e : ε), files = pre ++ f :: post →
      (∀ g ∈ pre, ∃ b, process g = .ok b) → process f = .error e →
      main_fixer process files = (2, pre.length + 1)) := by
  refine ⟨?_, ?_, ?_⟩
  · rintro rfl
    rfl
  · intro h hne
    rw [main_fixer, run_fixer_ok process files 0 0 h]
    have : files.length ≠ 0 := fun hz => hne (List.length_eq_zero.mp hz)
    simp [this]
  · rintro pre f post e rfl hpre hf
    rw [main_fixer, run_fixer_error process f e post hf pre 0 0 hpre]
    simp

/-- C8 (witness): with a concrete process that succeeds on `0` and raises on
anything else, the run over `[0, 1, 2]` exits with code 2 after attempting
exactly the first two files. -/
theorem main_fixer_exit_codes_witness :
    main_fixer (fun n : Nat => if n = 0 then Except.ok true else Except.error ()) [0, 1, 2] =
      (2, 2) := by
  refine (main_fixer_exit_codes
      (fun n : Nat => if n = 0 then Except.ok true else Except.error ()) [0, 1, 2]).2.2
    [0] 1 [2] () rfl ?_ rfl
  intro g hg
  rcases List.mem_singleton.mp hg with rfl
  exact ⟨true, rfl⟩

/-- Python `str.splitlines()` worker, for text whose only line terminator is
`'\n'` (which `read_text`'s universal-newline translation guarantees):
accumulate the current line and emit it at a newline or at end of text; a
terminating newline emits no trailing empty line. -/
def splitlinesAux : List Char → List Char → List (List Char)
  | [], acc => [acc.reverse]
  | '\n' :: rest, acc =>
    acc.reverse :: (match rest with | [] => [] | _ :: _ => splitlinesAux rest [])
  | c :: rest, acc => splitlinesAux rest (c :: acc)

/-- Python `text.splitlines(keepends=False)`: the empty text has no lines. -/
def splitlines : List Char → List (List Char)
  | [] => []
  | text => splitlinesAux text []

/-- Python `'\n'.join(lines)`. -/
def joinNL : List (List Char) → List Char
  | [] => []
  | [l] => l
  | l :: ls => l ++ '\n' :: joinNL ls

/-- The `TRUTH_VALUES` table of `fix_truthy.py` in insertion order:
`yes/no/on/off` in three casings mapped to `true`/`false`. -/
def TRUTH_VALUES : List (List Char × List Char) :=
  [(['y', 'e', 's'], ['t', 'r', 'u', 'e']), (['Y', 'e', 's'], ['t', 'r', 'u', 'e']),
   (['Y', 'E', 'S'], ['t', 'r', 'u', 'e']),
   (['n', 'o'], ['f', 'a', 'l', 's', 'e']), (['N', 'o'], ['f', 'a', 'l', 's', 'e']),
   (['N', 'O'], ['f', 'a', 'l', 's', 'e']),
   (['o', 'n'], ['t', 'r', 'u', 'e']), (['O', 'n'], ['t', 'r', 'u', 'e']),
   (['O', 'N'], ['t', 'r', 'u', 'e']),
   (['o', 'f', 'f'], ['f', 'a', 'l', 's', 'e']), (['O', 'f', 'f'], ['f', 'a', 'l', 's', 'e']),
   (['O', 'F', 'F'], ['f', 'a', 'l', 's', 'e'])]

/-- Quote-span loop of `fix_truthy.fix_truth_values_in_line`
(`fix_truthy.py`, lines 55–70): collect `(start, end)` index pairs of
spans opened by either quote character and closed by the same character,
skipping quotes preceded by a backslash.  The initial `quote_char` value is
irrelevant because it is only compared while a span is open. -/
def quoteSpansAux : List Char → Nat → Option Char → Bool → Char → Nat → List (Nat × Nat)
  | [], _, _, _, _, _ => []
  | ch :: rest, i, prev, inQ, qc, start =>
    if ch = '\x22' ∨ ch = '\x27' then
      if prev = some '\x5c' then quoteSpansAux rest (i + 1) (some ch) inQ qc start
      else if inQ = false then quoteSpansAux rest (i + 1) (some ch) true ch i
      else if ch = qc then (start, i) :: quoteSpansAux rest (i + 1) (some ch) false qc start
      else quoteSpansAux rest (i + 1) (some ch) inQ qc start
    else quoteSpansAux rest (i + 1) (some ch) inQ qc start

/-- Quote spans of a code segment. -/
def quoteSpans (code : List Char) : List (Nat × Nat) :=
  quoteSpansAux code 0 none false ' ' 0

/-- The `inside_quotes` helper: index lies in some recorded span
(inclusive on both ends). -/
def insideQuotes (spans : List (Nat × Nat)) (idx : Nat) : Bool :=
  spans.any (fun se => decide (se.1 ≤ idx) && decide (idx ≤ se.2))

/-- First list is an initial segment of the second. -/
def listStartsWith : List Char → List Char → Bool
  | [], _ => true
  | _ :: _, [] => false
  | p :: ps, c :: cs => p = c && listStartsWith ps cs

/-- Lookahead class `(\s|$|[,}\]])` of the truthy patterns. -/
def isDelimAfter (c : Char) : Bool := isPyWs c ∨ c = ',' ∨ c = '\x7d' ∨ c = ']'

/-- Match of the regex `(D\s*)old(?=(\s|$|[,}\]]))` at position `i`:
the delimiter `D` (`:` or `=`), a greedy whitespace run (no backtracking is
needed because every table key starts with a letter), the literal token, and
the zero-width lookahead.  Returns the match end and `group(1)`. -/
def matchTruthyAt (s : List Char) (delim : Char) (old : List Char) (i : Nat) :
    Option (Nat × List Char) :=
  if s[i]? = some delim then
    let tail := s.drop (i + 1)
    let w := (tail.takeWhile isPyWs).length
    if listStartsWith old (tail.drop w) then
      let e := i + 1 + w + old.length
      match s[e]? with
      | none => some (e, delim :: tail.take w)
      | some la => if isDelimAfter la then some (e, delim :: tail.take w) else none
    else none
  else none

/-- Python `re.finditer`: all non-overlapping matches, scanning left to
right and resuming at each match end.  Since a successful match always has
`e ≥ i + 1`, the `max` is the identity on the resume position.  The scan
position advances by at least one per step, so fuel `s.length + 1` is never
exhausted; fuel recursion keeps the function kernel-reducible. -/
def finditerTruthyFuel (s : List Char) (delim : Char) (old : List Char) :
    Nat → Nat → List (Nat × Nat × List Char)
  | 0, _ => []
  | fuel + 1, i =>
    if i < s.length then
      match matchTruthyAt s delim old i with
      | some (e, g) => (i, e, g) :: finditerTruthyFuel s delim old fuel (max (i + 1) e)
      | none => finditerTruthyFuel s delim old fuel (i + 1)
    else []

/-- All matches of one truthy pattern in `s`. -/
def finditerTruthy (s : List Char) (delim : Char) (old : List Char) :
    List (Nat × Nat × List Char) :=
  finditerTruthyFuel s delim old (s.length + 1) 0

/-- Replacement loop of `fix_truth_values_in_line` (`fix_truthy.py`,
lines 87–96): the match list is materialized before any replacement, so the
spans `(s0, e0)` and `group(1)` become stale as soon as one replacement
changes the string length; each replacement slices the *current* string at
the stale positions, exactly as the source does.  Matches starting inside a
(pre-replacement) quote span are skipped. -/
def applyMatches (spans : List (Nat × Nat)) (new : List Char) :
    List (Nat × Nat × List Char) → List Char → List Char
  | [], result => result
  | (s0, e0, g) :: rest, result =>
    if insideQuotes spans s0 then applyMatches spans new rest result
    else applyMatches spans new rest (result.take s0 ++ g ++ new ++ result.drop e0)

/-- One pattern of the inner loop: run `finditer` on the current result and
apply the replacement loop. -/
def applyPattern (spans : List (Nat × Nat)) (delim : Char) (old new : List Char)
    (result : List Char) : List Char :=
  applyMatches spans new (finditerTruthy result delim old) result

/-- Embedding of `fix_truthy.fix_truth_values_in_line` (`fix_truthy.py`,
lines 41–98): skip blank and full-line-comment lines; split code from
comment; record quote spans of the code; then for each table entry apply the
`:`-anchored pattern and then the `=`-anchored pattern. -/
def fix_truth_values_in_line (line : List Char) : List Char :=
  let stripped := line.dropWhile isPyWs
  if stripped = [] ∨ stripped.head? = some '#' then line
  else
    let cc := split_code_and_comment line
    let spans := quoteSpans cc.1
    let result := TRUTH_VALUES.foldl
      (fun r ov => applyPattern spans '=' ov.1 ov.2 (applyPattern spans ':' ov.1 ov.2 r)) cc.1
    result ++ cc.2

/-- Length of the leading whitespace run. -/
def wsRunLen (s : List Char) : Nat := (s.takeWhile isPyWs).length

/-- Core of the regex `^(\s*(-\s*)?[^:#\n][^:]*:)(\s{2,})(.*)$` once the
position `p` of the single `[^:#\n]` character is fixed: `[^:]*:` reaches
the first colon after `p`, `\s{2,}` requires at least two whitespace
characters after it, and the rewrite keeps the prefix through the colon,
one space, and the rest. -/
def tryCore (s : List Char) (p : Nat) : Option (List Char) :=
  match s[p]? with
  | none => none
  | some c =>
    if c = ':' ∨ c = '#' ∨ c = '\n' then none
    else
      match (s.drop (p + 1)).findIdx? (fun x => decide (x = ':')) with
      | none => none
      | some k =>
        let q := p + 1 + k
        let r := wsRunLen (s.drop (q + 1))
        if 2 ≤ r then some (s.take (q + 1) ++ ' ' :: s.drop (q + 1 + r)) else none

/-- First defined value in a list of options. -/
def firstSomeOpt {α : Type} : List (Option α) → Option α
  | [] => none
  | some a :: _ => some a
  | none :: rest => firstSomeOpt rest

/-- Embedding of `fix_colons.compress_after_first_mapping_colon`
(`fix_colons.py`, lines 31–44), including the regex engine's backtracking
order: `\s*` tries the longest whitespace prefix first, then the optional
`-\s*` group (present before absent, its inner `\s*` longest first); the
first choice whose continuation matches wins.  No match leaves the code
unchanged. -/
def compress_after_first_mapping_colon (code : List Char) : List Char :=
  let pChoices := ((List.range (wsRunLen code + 1)).reverse).flatMap (fun a =>
    (if code[a]? = some '-' then
      ((List.range (wsRunLen (code.drop (a + 1)) + 1)).reverse).map (fun b => a + 1 + b)
    else []) ++ [a])
  match firstSomeOpt (pChoices.map (tryCore code)) with
  | some out => out
  | none => code

/-- Walk of the `repl` closure in `fix_colons.normalize_inline_map_colons`
(`fix_colons.py`, lines 51–83): toggle quote flags (no escape handling),
and after an unquoted colon skip the following spaces, keeping one space
unless the next non-space character is `}` or `,` or the end. -/
def replWalkFuel : Nat → List Char → Bool → Bool → List Char
  | 0, l, _, _ => l
  | _ + 1, [], _, _ => []
  | fuel + 1, c :: rest, inS, inD =>
    if c = '\x27' ∧ inD = false then c :: replWalkFuel fuel rest (!inS) inD
    else if c = '\x22' ∧ inS = false then c :: replWalkFuel fuel rest inS (!inD)
    else if c = ':' ∧ inS = false ∧ inD = false then
      let rest2 := rest.drop ((rest.takeWhile (fun x => decide (x = ' '))).length)
      match rest2.head? with
      | some nc =>
        if nc = '\x7d' ∨ nc = ',' then ':' :: replWalkFuel fuel rest2 inS inD
        else ':' :: ' ' :: replWalkFuel fuel rest2 inS inD
      | none => [':']
    else c :: replWalkFuel fuel rest inS inD

/-- Scan for the closing `}` of the regex `\{([^{}\n]*)\}`: succeeds when
the next brace or newline after the opening `{` is a `}`. -/
def scanInnerBrace : List Char → List Char → Option (List Char × List Char)
  | [], _ => none
  | c :: rest, acc =>
    if c = '\x7d' then some (acc.reverse, rest)
    else if c = '\x7b' ∨ c = '\n' then none
    else scanInnerBrace rest (c :: acc)

/-- Leftmost match of `\{([^{}\n]*)\}`: split into text before the match,
the inner group, and the text after. -/
def findBraceMatchAux : List Char → List Char → Option (List Char × List Char × List Char)
  | [], _ => none
  | c :: rest, before =>
    if c = '\x7b' then
      match scanInnerBrace rest [] with
      | some (inner, after) => some (before.reverse, inner, after)
      | none => findBraceMatchAux rest (c :: before)
    else findBraceMatchAux rest (c :: before)

/-- Leftmost inline-map match in a code segment. -/
def findBraceMatch (s : List Char) : Option (List Char × List Char × List Char) :=
  findBraceMatchAux s []

/-- Python `re.sub` over the non-overlapping matches, left to right; each
match consumes at least two characters, so fuel equal to the text length
suffices and the fuel bound is never reached. -/
def subInlineFuel : Nat → List Char → List Char
  | 0, s => s
  | fuel + 1, s =>
    match findBraceMatch s with
    | none => s
    | some (b, inner, after) =>
      b ++ '\x7b' ::
        (pyStrip (replWalkFuel (inner.length + 1) inner false false) ++
          '\x7d' :: subInlineFuel fuel after)

/-- Embedding of `fix_colons.normalize_inline_map_colons` (`fix_colons.py`,
lines 47–86): rewrite each simple one-line inline map, compressing spaces
after unquoted colons and stripping the inner text. -/
def normalize_inline_map_colons (code : List Char) : List Char :=
  subInlineFuel code.length code

/-- Embedding of `fix_colons.fix_line` (`fix_colons.py`, lines 89–99). -/
def fix_line (l : List Char) : List Char :=
  let cc := split_code_and_comment l
  if pyStrip cc.1 = [] ∨ (cc.1.dropWhile isPyWs).head? = some '#' then l
  else normalize_inline_map_colons (compress_after_first_mapping_colon cc.1) ++ cc.2

/-- Embedding of `fix_truthy.fix_file` (`fix_truthy.py`, lines 106–114) as a
function from the original file text to `(changed, on-disk content)`: the
comparison is made *before* the original trailing newline is restored, and
the restored content is what gets written when they differ. -/
def fix_file_truthy (original : List Char) : Bool × List Char :=
  let new_content := joinNL ((splitlines original).map fix_truth_values_in_line)
  if new_content ≠ original then
    (true, new_content ++ (if original.getLast? = some '\n' then ['\n'] else []))
  else (false, original)

/-- Rejoined content of `fix_trailing_spaces.fix_file` before the newline
restore step: trailing spaces and tabs stripped from every line. -/
def trailingRejoined (original : List Char) : List Char :=
  joinNL ((splitlines original).map rstripSpaceTab)

/-- Newline-restore step of `fix_trailing_spaces.fix_file`: append one
newline only when the original ended with one and the rejoined text does
not. -/
def fixTrailingRestored (original : List Char) : List Char :=
  if original.getLast? = some '\n' ∧ ¬ (trailingRejoined original).getLast? = some '\n'
  then trailingRejoined original ++ ['\n'] else trailingRejoined original

/-- Embedding of `fix_trailing_spaces.fix_file` (`fix_trailing_spaces.py`,
lines 24–37) as a function from the original file text to
`(changed, on-disk content)`: write only when the restored content differs. -/
def fix_file_trailing (original : List Char) : Bool × List Char :=
  if fixTrailingRestored original ≠ original then (true, fixTrailingRestored original)
  else (false, original)

/-- New content of `fix_colons.fix_file`: every line rewritten, then
`ensure_final_newline` applied unconditionally. -/
def colonsNewContent (original : List Char) : List Char :=
  (ensure_final_newline (joinNL ((splitlines original).map fix_line))).1

/-- Embedding of `fix_colons.fix_file` (`fix_colons.py`, lines 102–111) as a
function from the original file text to `(changed, on-disk content)`. -/
def fix_file_colons (original : List Char) : Bool × List Char :=
  if colonsNewContent original ≠ original then (true, colonsNewContent original)
  else (false, original)

/-- C6 (code bug): `fix_truthy.fix_file` compares the rejoined content with
the original *before* restoring the trailing newline.  On the file `a\n`
(no truthy token anywhere) the rejoined content `a` differs from `a\n`, so
the file is reported changed and rewritten although the bytes written are
exactly the original — contradicting both the claim and the script's own
"modified in place only when changes occur" docstring. -/
theorem fix_file_truthy_rewrites_identical :
    fix_file_truthy ['a', '\n'] = (true, ['a', '\n']) := by decide

/-- C7 (counterexample): the colon fixer applies `ensure_final_newline`
unconditionally, so the one-byte file `a` (no trailing newline) is rewritten
to `a\n` — it gains a newline; and the trailing-space fixer on `a\n(spaces)`
produces `a\n`, which ends with a newline although the original did not. -/
theorem fix_file_newline_gain_cx :
    fix_file_colons ['a'] = (true, ['a', '\n']) ∧
    fix_file_trailing ['a', '\n', ' ', ' '] = (true, ['a', '\n']) ∧
    (['a'] : List Char).getLast? ≠ some '\n' ∧
    (['a', '\n', ' ', ' '] : List Char).getLast? ≠ some '\n' := by
  refine ⟨?_, ?_, ?_, ?_⟩ <;> decide

theorem fix_file_trailing_written (original : List Char) :
    (fix_file_trailing original).2 = fixTrailingRestored original := by
  rw [fix_file_trailing]
  split_ifs with h
  · rfl
  · rw [not_not] at h
    exact h.symm

theorem fix_file_colons_written (original : List Char) :
    (fix_file_colons original).2 = colonsNewContent original := by
  rw [fix_file_colons]
  split_ifs with h
  · rfl
  · rw [not_not] at h
    exact h.symm

/-- C7 (amended): the trailing-space fixer's restore step appends a newline
only when the original ended with one and the rejoined text lacks one; the
truthy fixer's restore step appends a newline whenever the original ended
with one, without consulting the rejoined text.  Under both fixers an
original with no final newline gets nothing appended — the written text is
the bare rejoined text, which can itself end in a newline only through the
join separator — and an original ending in a newline always yields written
content ending in a newline.  The colon fixer instead always writes content
ending in a newline, by `ensure_final_newline`. -/
theorem fixers_trailing_newline_spec (original : List Char) :
    (original.getLast? ≠ some '\n' →
      (fix_file_trailing original).2 = trailingRejoined original) ∧
    (original.getLast? = some '\n' →
      (fix_file_trailing original).2.getLast? = some '\n') ∧
    (original.getLast? ≠ some '\n' →
      (fix_file_truthy original).2 =
        joinNL ((splitlines original).map fix_truth_values_in_line)) ∧
    (original.getLast? = some '\n' →
      (fix_file_truthy original).2.getLast? = some '\n') ∧
    (fix_file_colons original).2.getLast? = some '\n' := by
  refine ⟨?_, ?_, ?_, ?_, ?_⟩
  · intro h
    rw [fix_file_trailing_written, fixTrailingRestored, if_neg (by simp [h])]
  · intro h
    rw [fix_file_trailing_written, fixTrailingRestored]
    split_ifs with hc
    · simp
    · simp only [h, true_and, not_not] at hc
      exact hc
  · intro h
    by_cases hne : joinNL ((splitlines original).map fix_truth_values_in_line) ≠ original
    · simp [fix_file_truthy, if_pos hne, if_neg h]
    · rw [not_not] at hne
      simp [fix_file_truthy, hne]
  · intro h
    by_cases hne : joinNL ((splitlines original).map fix_truth_values_in_line) ≠ original
    · simp [fix_file_truthy, if_pos hne, if_pos h]
    · rw [not_not] at hne
      simp [fix_file_truthy, hne, h]
  · rw [fix_file_colons_written, colonsNewContent]
    exact ensure_final_newline_ends _

/-- C7 (witness): on the file `x` neither the trailing-space fixer nor the
truthy fixer appends anything — the written text is the bare rejoined
content. -/
theorem fixers_trailing_newline_spec_witness :
    (fix_file_trailing ['x']).2 = trailingRejoined ['x'] ∧
    (fix_file_truthy ['x']).2 = joinNL ((splitlines ['x']).map fix_truth_values_in_line) :=
  ⟨(fixers_trailing_newline_spec ['x']).1 (by decide),
    (fixers_trailing_newline_spec ['x']).2.2.1 (by decide)⟩

/-- C9 (code bug): neither line transform is idempotent.  The truthy fixer
materializes each pattern's matches before replacing, so on
`a: no b: no c: no` the stale spans mangle the line to
`a: fals: fals: false c: no`, and a second application rewrites the
surviving `c: no` to `c: false`.  The colon fixer on `{a:(tab)b}` inserts a
space before the tab; on the next pass the two-character whitespace run
matches `\s{2,}` and collapses, so the second application differs again. -/
theorem fixers_not_idempotent :
    fix_truth_values_in_line
        ['a', ':', ' ', 'n', 'o', ' ', 'b', ':', ' ', 'n', 'o', ' ', 'c', ':', ' ', 'n', 'o'] =
      ['a', ':', ' ', 'f', 'a', 'l', 's', ':', ' ', 'f', 'a', 'l', 's', ':', ' ',
        'f', 'a', 'l', 's', 'e', ' ', 'c', ':', ' ', 'n', 'o'] ∧
    fix_truth_values_in_line
        ['a', ':', ' ', 'f', 'a', 'l', 's', ':', ' ', 'f', 'a', 'l', 's', ':', ' ',
          'f', 'a', 'l', 's', 'e', ' ', 'c', ':', ' ', 'n', 'o'] =
      ['a', ':', ' ', 'f', 'a', 'l', 's', ':', ' ', 'f', 'a', 'l', 's', ':', ' ',
        'f', 'a', 'l', 's', 'e', ' ', 'c', ':', ' ', 'f', 'a', 'l', 's', 'e'] ∧
    fix_truth_values_in_line (fix_truth_values_in_line
        ['a', ':', ' ', 'n', 'o', ' ', 'b', ':', ' ', 'n', 'o', ' ', 'c', ':', ' ', 'n', 'o']) ≠
      fix_truth_values_in_line
        ['a', ':', ' ', 'n', 'o', ' ', 'b', ':', ' ', 'n', 'o', ' ', 'c', ':', ' ', 'n', 'o'] ∧
    fix_line ['\x7b', 'a', ':', '\t', 'b', '\x7d'] =
      ['\x7b', 'a', ':', ' ', '\t', 'b', '\x7d'] ∧
    fix_line ['\x7b', 'a', ':', ' ', '\t', 'b', '\x7d'] = ['\x7b', 'a', ':', ' ', 'b', '\x7d'] ∧
    fix_line (fix_line ['\x7b', 'a', ':', '\t', 'b', '\x7d']) ≠
      fix_line ['\x7b', 'a', ':', '\t', 'b', '\x7d'] := by
  have h1 : fix_truth_values_in_line
      ['a', ':', ' ', 'n', 'o', ' ', 'b', ':', ' ', 'n', 'o', ' ', 'c', ':', ' ', 'n', 'o'] =
      ['a', ':', ' ', 'f', 'a', 'l', 's', ':', ' ', 'f', 'a', 'l', 's', ':', ' ',
        'f', 'a', 'l', 's', 'e', ' ', 'c', ':', ' ', 'n', 'o'] := by decide
  have h2 : fix_truth_values_in_line
      ['a', ':', ' ', 'f', 'a', 'l', 's', ':', ' ', 'f', 'a', 'l', 's', ':', ' ',
        'f', 'a', 'l', 's', 'e', ' ', 'c', ':', ' ', 'n', 'o'] =
      ['a', ':', ' ', 'f', 'a', 'l', 's', ':', ' ', 'f', 'a', 'l', 's', ':', ' ',
        'f', 'a', 'l', 's', 'e', ' ', 'c', ':', ' ', 'f', 'a', 'l', 's', 'e'] := by decide
  have h3 : fix_line ['\x7b', 'a', ':', '\t', 'b', '\x7d'] =
      ['\x7b', 'a', ':', ' ', '\t', 'b', '\x7d'] := by decide
  have h4 : fix_line ['\x7b', 'a', ':', ' ', '\t', 'b', '\x7d'] =
      ['\x7b', 'a', ':', ' ', 'b', '\x7d'] := by decide
  refine ⟨h1, h2, ?_, h3, h4, ?_⟩
  · rw [h1, h2]
    decide
  · rw [h3, h4]
    decide
